import Mathlib

/-!
Verification of the "Random Variables Simulation" modules: inverse-transform
samplers (binomial, geometric, exponential, beta(1,6)), an acceptance-rejection
sampler for gamma(3,1), a monthly compounding savings path, and a sequential
Monte Carlo estimator with a confidence-interval stopping rule.

Numbers are modelled exactly: rationals for the purely arithmetic discrete
samplers, reals for the transcendental ones.  Python's `random()` is modelled
as an arbitrary element of `[0, 1)`; a stream of draws is a function from a
draw index.  The unbounded `while` loops are modelled with explicit fuel,
`none` meaning the loop has not returned within the given fuel.
-/

/-- A value produced by Python's `random()`: a real in `[0, 1)`. -/
def Unit01 : Type := {u : ℝ // 0 ≤ u ∧ u < 1}

namespace Binomial

/-- binomial.py `binomial_mass`: `comb(n, x) * p**x * (1 - p)**(n - x)`
when `0 <= x <= n`, else `0`. -/
def binomial_mass (x : ℤ) (n : ℕ) (p : ℚ) : ℚ :=
  if 0 ≤ x ∧ x ≤ (n : ℤ) then (n.choose x.toNat : ℚ) * p ^ x.toNat * (1 - p) ^ (n - x.toNat)
  else 0

/-- The `for i in range(n + 1)` walk of binomial.py `binomial_simulation`:
`rem` iterations remain, `i` is the current support point, `prob` the
cumulative mass so far.  Each iteration adds `binomial_mass i n p` and returns
`i` once `u < prob`.  Falling out of the loop is Python's implicit
`return None`, modelled as `none`. -/
def binomial_walk (n : ℕ) (p u : ℚ) : ℕ → ℕ → ℚ → Option ℕ
  | 0, _, _ => none
  | rem + 1, i, prob =>
      let prob2 := prob + binomial_mass i n p
      if u < prob2 then some i else binomial_walk n p u rem (i + 1) prob2

/-- binomial.py `binomial_simulation`: draw `u = random()`, then walk the
support `0..n` accumulating mass from `prob = 0`. -/
def binomial_simulation (n : ℕ) (p u : ℚ) : Option ℕ :=
  binomial_walk n p u (n + 1) 0 0

/-- Cumulative binomial mass over the first `k` support points `0..k-1`. -/
def binomial_cum (n : ℕ) (p : ℚ) (k : ℕ) : ℚ :=
  ∑ i in Finset.range k, binomial_mass i n p

end Binomial

namespace Geometric

/-- geometric.py `geometric_mass`: `p * (1 - p)**(x - 1)` when `x >= 1`,
else `0`. -/
def geometric_mass (x : ℤ) (p : ℚ) : ℚ :=
  if 1 ≤ x then p * (1 - p) ^ (x - 1).toNat else 0

/-- The `while not num < prob` loop of geometric.py `geometric_simulation`:
test first, then add `geometric_mass x p` and increment `x`.  After the loop
the CURRENT `x` (already incremented past the point whose mass was added
last) is returned. -/
def geometric_walk (p u : ℚ) : ℕ → ℚ → ℕ → Option ℕ
  | 0, _, _ => none
  | fuel + 1, prob, x =>
      if u < prob then some x
      else geometric_walk p u fuel (prob + geometric_mass x p) (x + 1)

/-- geometric.py `geometric_simulation`: draw `u = random()`, start from
`prob = 0`, `x = 1`, loop until `u < prob`, return `x`. -/
def geometric_simulation (p u : ℚ) (fuel : ℕ) : Option ℕ :=
  geometric_walk p u fuel 0 1

end Geometric

namespace Exponential

/-- exponential.py `exp_dist_inverse`: `-log(1 - u) / lambda_`.  All call
sites feed `u = random() ∈ [0, 1)`, where `math.log` agrees with `Real.log`;
Mathlib's total `Real.log` and total division stand in for the Python
domain errors outside that range. -/
noncomputable def exp_dist_inverse (u lambda_ : ℝ) : ℝ :=
  -Real.log (1 - u) / lambda_

/-- exponential.py `exp_simulation`: `exp_dist_inverse(random(), lambda_)`. -/
noncomputable def exp_simulation (lambda_ : ℝ) (u : Unit01) : ℝ :=
  exp_dist_inverse u.1 lambda_

end Exponential

namespace Gamma

/-- gamma.py `f`: the gamma(3,1) density `(1/2) * x**2 * exp(-x)`. -/
noncomputable def f (x : ℝ) : ℝ := (1 / 2) * x ^ 2 * Real.exp (-x)

/-- gamma.py `g`: the exponential(1/2) density `(1/2) * exp(-x/2)`. -/
noncomputable def g (x : ℝ) : ℝ := (1 / 2) * Real.exp (-x / 2)

/-- gamma.py `gamma_3_1_simulation`'s envelope constant `c = 16 * exp(-2)`. -/
noncomputable def c : ℝ := 16 * Real.exp (-2)

/-- The acceptance test of gamma.py `gamma_3_1_simulation`:
`U < f(num_sim) / (g(num_sim) * c)`. -/
def accepts (num_sim U : ℝ) : Prop := U < f num_sim / (g num_sim * c)

open Classical in
/-- The `while True` loop of gamma.py `gamma_3_1_simulation`, with fuel:
draw `num_sim` from Exponential(1/2) and an independent `U`, return `num_sim`
on acceptance, otherwise retry with the next pair of draws.  `none` means the
loop has not returned within `fuel` iterations; the code has no other exit
and raises nothing. -/
noncomputable def gamma_3_1_simulation (draws : ℕ → Unit01 × Unit01) :
    ℕ → ℕ → Option ℝ
  | _, 0 => none
  | k, fuel + 1 =>
      let num_sim := Exponential.exp_simulation (1 / 2) (draws k).1
      let U := ((draws k).2).1
      if accepts num_sim U then some num_sim
      else gamma_3_1_simulation draws (k + 1) fuel

end Gamma

namespace Investment

open Classical in
/-- invesment_simulation.py `beta_dist_1_6_inverse`:
`1 - (1 - u)**(1/6) if 0 <= u <= 1 else 0` (real power). -/
noncomputable def beta_dist_1_6_inverse (u : ℝ) : ℝ :=
  if 0 ≤ u ∧ u ≤ 1 then 1 - (1 - u) ^ ((1 : ℝ) / 6) else 0

/-- invesment_simulation.py `beta_dist_1_6_simulation`:
`beta_dist_1_6_inverse(random())`. -/
noncomputable def beta_dist_1_6_simulation (u : Unit01) : ℝ :=
  beta_dist_1_6_inverse u.1

/-- The `for month in range(1, months + 1)` loop of invesment_simulation.py
`accumulated_saved_simulation`: each month draws `saved` and a
`rate_of_return` (indexed by `k`) and updates
`accumulated = (accumulated + saved) * (1 + rate_of_return)`;
`m` months remain. -/
noncomputable def pathRun (draws : ℕ → Unit01 × Unit01) : ℕ → ℕ → ℝ → ℝ
  | _, 0, accumulated => accumulated
  | k, m + 1, accumulated =>
      let saved := Exponential.exp_simulation (1 / 1000) (draws k).1
      let rate_of_return := beta_dist_1_6_simulation (draws k).2
      pathRun draws (k + 1) m ((accumulated + saved) * (1 + rate_of_return))

/-- invesment_simulation.py `accumulated_saved_simulation`: fold the monthly
recurrence from `accumulated = 0`.  Python's `range(1, months + 1)` performs
`max months 0` iterations, i.e. `months.toNat`. -/
noncomputable def accumulated_saved_simulation (months : ℤ)
    (draws : ℕ → Unit01 × Unit01) : ℝ :=
  pathRun draws 0 months.toNat 0

/-- `np.mean` on a list: sum divided by length. -/
noncomputable def np_mean (l : List ℝ) : ℝ := l.sum / l.length

/-- `np.std` on a list (default `ddof = 0`): the square root of the mean of
the squared deviations from the mean — the population convention, dividing
by `n`. -/
noncomputable def np_std (l : List ℝ) : ℝ :=
  Real.sqrt ((l.map fun x => (x - np_mean l) ^ 2).sum / l.length)

open Classical in
/-- The half-width update of invesment_simulation.py
`accumulated_saved_average_simulation`:
`error = z * s / (n ** 0.5) if n > 1 else error`, with `s = np.std` of the
accumulated samples and `n` their count. -/
noncomputable def half_width_update (z error : ℝ) (accumulated : List ℝ) : ℝ :=
  if 1 < accumulated.length then
    z * np_std accumulated / Real.sqrt accumulated.length
  else error

open Classical in
/-- The `while error > 5000` loop of invesment_simulation.py
`accumulated_saved_average_simulation`, with fuel: each iteration appends one
terminal-value sample, recomputes the half-width, and the loop exits with
`(mean, error, n)` once `error ≤ 5000`.  `samples` abstracts the stream of
`accumulated_saved_simulation(36)` results; `none` means the loop has not
exited within `fuel` iterations. -/
noncomputable def estimation_loop (z : ℝ) (samples : ℕ → ℝ) :
    ℕ → List ℝ → ℝ → Option (ℝ × ℝ × ℕ)
  | 0, _, _ => none
  | fuel + 1, accumulated, error =>
      if error > 5000 then
        let accumulated2 := accumulated ++ [samples accumulated.length]
        estimation_loop z samples fuel accumulated2
          (half_width_update z error accumulated2)
      else some (np_mean accumulated, error, accumulated.length)

/-- invesment_simulation.py `accumulated_saved_average_simulation`:
`coef_conf = 1 - confidence`, `z = norm.ppf(1 - coef_conf / 2)` (the
standard-normal quantile `ppf` is an external dependency, passed in), start
from an empty sample list and sentinel `error = 10000`. -/
noncomputable def accumulated_saved_average_simulation (ppf : ℝ → ℝ)
    (confidence : ℝ) (samples : ℕ → ℝ) (fuel : ℕ) : Option (ℝ × ℝ × ℕ) :=
  estimation_loop (ppf (1 - (1 - confidence) / 2)) samples fuel [] 10000

end Investment

/-- The draw `0 ∈ [0, 1)`. -/
def u0 : Unit01 := ⟨0, by norm_num⟩

/-- A concrete draw stream: every uniform draw is `0`. -/
def dZero : ℕ → Unit01 × Unit01 := fun _ => (u0, u0)

namespace Binomial

lemma binomial_mass_coe (n : ℕ) (p : ℚ) (x : ℕ) (hx : x ≤ n) :
    binomial_mass x n p = (n.choose x : ℚ) * p ^ x * (1 - p) ^ (n - x) := by
  unfold binomial_mass
  rw [if_pos ⟨Int.ofNat_nonneg x, by exact_mod_cast hx⟩]
  simp

lemma binomial_sum_one (n : ℕ) (p : ℚ) :
    ∑ x in Finset.range (n + 1), binomial_mass x n p = 1 := by
  calc ∑ x in Finset.range (n + 1), binomial_mass x n p
      = ∑ x in Finset.range (n + 1), p ^ x * (1 - p) ^ (n - x) * (n.choose x : ℚ) := by
        refine Finset.sum_congr rfl fun x hx => ?_
        rw [binomial_mass_coe n p x (Nat.lt_succ_iff.mp (Finset.mem_range.mp hx))]
        ring
    _ = (p + (1 - p)) ^ n := (add_pow p (1 - p) n).symm
    _ = 1 := by norm_num

end Binomial

/-- C8: for every `n ≥ 0` and rational `p ∈ [0, 1]` the binomial masses
`C(n,x) * p^x * (1-p)^(n-x)` sum to exactly `1` over `x = 0..n` (exact
rational arithmetic), and `binomial_mass x n p = 0` for every `x` outside
`[0, n]`. -/
theorem binomial_mass_sums_to_one (n : ℕ) (p : ℚ) (_hp0 : 0 ≤ p) (_hp1 : p ≤ 1) :
    (∑ x in Finset.range (n + 1), Binomial.binomial_mass x n p) = 1 ∧
    ∀ x : ℤ, x < 0 ∨ (n : ℤ) < x → Binomial.binomial_mass x n p = 0 := by
  refine ⟨Binomial.binomial_sum_one n p, fun x hx => ?_⟩
  unfold Binomial.binomial_mass
  rw [if_neg]
  rcases hx with h | h
  · exact fun hc => absurd hc.1 (not_le.mpr h)
  · exact fun hc => absurd hc.2 (not_le.mpr h)

/-- Witness for C8 at `n = 2`, `p = 1/2`. -/
theorem binomial_mass_sums_to_one_witness :
    (0 : ℚ) ≤ 1 / 2 ∧ (1 / 2 : ℚ) ≤ 1 ∧
    (∑ x in Finset.range 3, Binomial.binomial_mass x 2 (1 / 2)) = 1 :=
  ⟨by norm_num, by norm_num,
    (binomial_mass_sums_to_one 2 (1 / 2) (by norm_num) (by norm_num)).1⟩

/-- C3 (evaluation at the failing input): with `p = 9/10` and `u = 1/2` we
have `u < p`, so the smallest `x ≥ 1` whose cumulative geometric mass exceeds
`u` is `1` — yet `geometric_simulation` returns `2`, because it increments
`x` once more after the cumulative mass has already exceeded `u`.  Its
return value is always one more than the inverse-transform answer, so the
sampler's support is `{2, 3, ...}`, contradicting its own docstring (a
geometric variable on `{1, 2, ...}`). -/
theorem geometric_returns_two_when_u_lt_p :
    (1 / 2 : ℚ) < 9 / 10 ∧
    Geometric.geometric_simulation (9 / 10) (1 / 2) 3 = some 2 := by
  refine ⟨by norm_num, ?_⟩
  norm_num [Geometric.geometric_simulation, Geometric.geometric_walk,
    Geometric.geometric_mass]

namespace Investment

lemma beta_inv_nonneg (u : ℝ) : 0 ≤ beta_dist_1_6_inverse u := by
  unfold beta_dist_1_6_inverse
  split
  · rename_i h
    have h1 : (1 : ℝ) - u ≤ 1 := by linarith [h.1]
    have h0 : (0 : ℝ) ≤ 1 - u := by linarith [h.2]
    have := Real.rpow_le_one h0 h1 (by norm_num : (0:ℝ) ≤ 1 / 6)
    linarith
  · norm_num

lemma beta_inv_le_one (u : ℝ) : beta_dist_1_6_inverse u ≤ 1 := by
  unfold beta_dist_1_6_inverse
  split
  · rename_i h
    have h0 : (0 : ℝ) ≤ 1 - u := by linarith [h.2]
    have := Real.rpow_nonneg h0 ((1 : ℝ) / 6)
    linarith
  · norm_num

lemma beta_sim_nonneg (w : Unit01) : 0 ≤ beta_dist_1_6_simulation w :=
  beta_inv_nonneg w.1

lemma beta_sim_lt_one (w : Unit01) : beta_dist_1_6_simulation w < 1 := by
  unfold beta_dist_1_6_simulation beta_dist_1_6_inverse
  rw [if_pos ⟨w.2.1, le_of_lt w.2.2⟩]
  have h0 : (0 : ℝ) < 1 - w.1 := by linarith [w.2.2]
  have := Real.rpow_pos_of_pos h0 ((1 : ℝ) / 6)
  linarith

end Investment

/-- C10: `beta_dist_1_6_inverse` always lands in `[0, 1]`: it returns
`1 - (1-u)^(1/6)` when `0 ≤ u ≤ 1` and `0` for `u` outside `[0, 1]`; and
`beta_dist_1_6_simulation` of a uniform draw in `[0, 1)` lands in `[0, 1)`. -/
theorem beta_inverse_range (u : ℝ) :
    (0 ≤ Investment.beta_dist_1_6_inverse u ∧
      Investment.beta_dist_1_6_inverse u ≤ 1) ∧
    (0 ≤ u → u ≤ 1 →
      Investment.beta_dist_1_6_inverse u = 1 - (1 - u) ^ ((1 : ℝ) / 6)) ∧
    (u < 0 ∨ 1 < u → Investment.beta_dist_1_6_inverse u = 0) ∧
    (∀ w : Unit01, 0 ≤ Investment.beta_dist_1_6_simulation w ∧
      Investment.beta_dist_1_6_simulation w < 1) := by
  refine ⟨⟨Investment.beta_inv_nonneg u, Investment.beta_inv_le_one u⟩,
    fun h0 h1 => ?_, fun h => ?_,
    fun w => ⟨Investment.beta_sim_nonneg w, Investment.beta_sim_lt_one w⟩⟩
  · unfold Investment.beta_dist_1_6_inverse
    rw [if_pos ⟨h0, h1⟩]
  · unfold Investment.beta_dist_1_6_inverse
    rw [if_neg]
    rcases h with h | h
    · exact fun hc => absurd hc.1 (not_le.mpr h)
    · exact fun hc => absurd hc.2 (not_le.mpr h)

/-- Witness for C10 at `u = 1/2`. -/
theorem beta_inverse_range_witness :
    (0 : ℝ) ≤ 1 / 2 ∧ (1 / 2 : ℝ) ≤ 1 ∧
    Investment.beta_dist_1_6_inverse (1 / 2)
      = 1 - (1 - 1 / 2) ^ ((1 : ℝ) / 6) :=
  ⟨by norm_num, by norm_num,
    (beta_inverse_range (1 / 2)).2.1 (by norm_num) (by norm_num)⟩

/-- C5 counterexample: malformed parameters are not rejected.  With the
malformed (negative) rate `-1`, `exp_dist_inverse` silently returns the
negative number `-log 2` instead of raising a `ParameterError`; with the
malformed horizon `-5`, `accumulated_saved_simulation` silently returns `0`
from an empty loop.  No `ParameterError` (nor any validation) exists in the
code. -/
theorem no_parameter_error_counterexample :
    Exponential.exp_dist_inverse (1 / 2) (-1) = -Real.log 2 ∧
    -Real.log 2 < 0 ∧
    Investment.accumulated_saved_simulation (-5) dZero = 0 := by
  refine ⟨?_, ?_, ?_⟩
  · unfold Exponential.exp_dist_inverse
    rw [show (1 : ℝ) - 1 / 2 = 2⁻¹ by norm_num, Real.log_inv]
    ring
  · exact neg_neg_iff_pos.mpr (Real.log_pos (by norm_num))
  · unfold Investment.accumulated_saved_simulation
    rw [show ((-5 : ℤ)).toNat = 0 from rfl]
    rfl

/-- C5 amended: no operation validates its parameters and no `ParameterError`
exists in the code.  A non-positive horizon makes the path simulation return
`0` from an empty loop (no error), and a negative rate makes the exponential
inverse return a negative — silently wrong — sample (no error). -/
theorem no_parameter_validation :
    (∀ (months : ℤ) (d : ℕ → Unit01 × Unit01), months ≤ 0 →
      Investment.accumulated_saved_simulation months d = 0) ∧
    (∀ lam : ℝ, lam < 0 → Exponential.exp_dist_inverse (1 / 2) lam < 0) := by
  constructor
  · intro months d h
    unfold Investment.accumulated_saved_simulation
    rw [Int.toNat_eq_zero.mpr h]
    rfl
  · intro lam h
    unfold Exponential.exp_dist_inverse
    rw [show (1 : ℝ) - 1 / 2 = 2⁻¹ by norm_num, Real.log_inv, neg_neg]
    exact div_neg_of_pos_of_neg (Real.log_pos (by norm_num)) h

/-- Witness for the amended C5 at horizon `-3` and rate `-1`. -/
theorem no_parameter_validation_witness :
    ((-3 : ℤ) ≤ 0 ∧ Investment.accumulated_saved_simulation (-3) dZero = 0) ∧
    ((-1 : ℝ) < 0 ∧ Exponential.exp_dist_inverse (1 / 2) (-1) < 0) :=
  ⟨⟨by norm_num, no_parameter_validation.1 (-3) dZero (by norm_num)⟩,
   ⟨by norm_num, no_parameter_validation.2 (-1) (by norm_num)⟩⟩

namespace Gamma

lemma g_pos (x : ℝ) : 0 < g x := by unfold g; positivity

lemma c_pos : 0 < c := by unfold c; positivity

lemma ratio_eq (x : ℝ) : f x / g x = x ^ 2 * Real.exp (-x / 2) := by
  unfold f g
  rw [div_eq_iff (by positivity : (1 / 2 : ℝ) * Real.exp (-x / 2) ≠ 0)]
  have h : Real.exp (-x / 2) * Real.exp (-x / 2) = Real.exp (-x) := by
    rw [← Real.exp_add]; congr 1; ring
  calc (1 / 2 : ℝ) * x ^ 2 * Real.exp (-x)
      = (1 / 2) * x ^ 2 * (Real.exp (-x / 2) * Real.exp (-x / 2)) := by rw [h]
    _ = x ^ 2 * Real.exp (-x / 2) * (1 / 2 * Real.exp (-x / 2)) := by ring

lemma ratio_le_c (x : ℝ) (hx : 0 ≤ x) :
    x ^ 2 * Real.exp (-x / 2) ≤ 16 * Real.exp (-2) := by
  have h1 : x / 4 ≤ Real.exp (x / 4 - 1) := by
    have := Real.add_one_le_exp (x / 4 - 1)
    linarith
  have h2 : (x / 4) ^ 2 ≤ Real.exp (x / 4 - 1) ^ 2 :=
    pow_le_pow_left₀ (by linarith) h1 2
  have h3 : Real.exp (x / 4 - 1) ^ 2 = Real.exp (x / 2 - 2) := by
    rw [← Real.exp_nat_mul]
    congr 1
    push_cast
    ring
  have h4 : x ^ 2 / 16 ≤ Real.exp (x / 2 - 2) := by
    calc x ^ 2 / 16 = (x / 4) ^ 2 := by ring
      _ ≤ Real.exp (x / 4 - 1) ^ 2 := h2
      _ = Real.exp (x / 2 - 2) := h3
  have h5 : Real.exp (x / 2 - 2) * Real.exp (-x / 2) = Real.exp (-2) := by
    rw [← Real.exp_add]; congr 1; ring
  have hE : (0 : ℝ) ≤ Real.exp (-x / 2) := le_of_lt (Real.exp_pos _)
  calc x ^ 2 * Real.exp (-x / 2)
      = 16 * (x ^ 2 / 16) * Real.exp (-x / 2) := by ring
    _ ≤ 16 * Real.exp (x / 2 - 2) * Real.exp (-x / 2) := by
        have h6 := mul_le_mul_of_nonneg_right
          (mul_le_mul_of_nonneg_left h4 (by norm_num : (0 : ℝ) ≤ 16)) hE
        linarith
    _ = 16 * (Real.exp (x / 2 - 2) * Real.exp (-x / 2)) := by ring
    _ = 16 * Real.exp (-2) := by rw [h5]

end Gamma

/-- C2: the gamma(3,1) acceptance-rejection sampler accepts a proposal `x`
exactly when the uniform `U` satisfies `U < f(x) / (c·g(x))`; and on the
whole support `x ≥ 0` the ratio `f(x)/g(x) = x² e^(-x/2)` is bounded by
`c = 16 e^(-2)`, so the acceptance probability `f(x)/(c·g(x))` is at
most `1`. -/
theorem gamma_acceptance_envelope (x : ℝ) (hx : 0 ≤ x) :
    (∀ U : ℝ, Gamma.accepts x U ↔ U < Gamma.f x / (Gamma.c * Gamma.g x)) ∧
    Gamma.f x / Gamma.g x = x ^ 2 * Real.exp (-x / 2) ∧
    Gamma.f x / Gamma.g x ≤ Gamma.c ∧
    Gamma.f x / (Gamma.c * Gamma.g x) ≤ 1 := by
  have hratio := Gamma.ratio_eq x
  have hle : Gamma.f x / Gamma.g x ≤ Gamma.c := by
    rw [hratio]
    unfold Gamma.c
    exact Gamma.ratio_le_c x hx
  have hfg : Gamma.f x ≤ Gamma.c * Gamma.g x := (div_le_iff₀ (Gamma.g_pos x)).mp hle
  refine ⟨fun U => ?_, hratio, hle, ?_⟩
  · unfold Gamma.accepts
    rw [mul_comm (Gamma.g x) Gamma.c]
  · rw [div_le_one (mul_pos Gamma.c_pos (Gamma.g_pos x))]
    linarith

/-- Witness for C2 at `x = 4`, where the ratio attains the envelope. -/
theorem gamma_acceptance_envelope_witness :
    (0 : ℝ) ≤ 4 ∧ Gamma.f 4 / Gamma.g 4 ≤ Gamma.c :=
  ⟨by norm_num, (gamma_acceptance_envelope 4 (by norm_num)).2.2.1⟩

namespace Gamma

lemma exp_sim_u0 : Exponential.exp_simulation (1 / 2) u0 = 0 := by
  unfold Exponential.exp_simulation Exponential.exp_dist_inverse u0
  simp

lemma dZero_rejects (k : ℕ) :
    ¬ accepts (Exponential.exp_simulation (1 / 2) (dZero k).1)
        ((dZero k).2).1 := by
  show ¬ accepts (Exponential.exp_simulation (1 / 2) u0) u0.1
  rw [exp_sim_u0]
  unfold accepts f u0
  norm_num

lemma gamma_loop_dZero_none :
    ∀ (fuel k : ℕ), gamma_3_1_simulation dZero k fuel = none := by
  intro fuel
  induction fuel with
  | zero => intro k; rfl
  | succ n ih =>
      intro k
      rw [gamma_3_1_simulation]
      rw [if_neg (dZero_rejects k)]
      exact ih (k + 1)

end Gamma

/-- C6 counterexample: on a draw stream that always rejects (every uniform is
`0`, so the proposal is `0`, the acceptance ratio `f(0)/(c·g(0)) = 0`, and
`U = 0` is never `< 0`), the gamma acceptance-rejection loop has neither
accepted nor raised anything after `10^6` iterations: it is simply still
iterating.  No `EstimationDivergedError` and no iteration cap exist in the
code. -/
theorem gamma_loop_no_cap_counterexample :
    Gamma.gamma_3_1_simulation dZero 0 1000000 = none :=
  Gamma.gamma_loop_dZero_none 1000000 0

/-- C6 amended: the loops carry no safety iteration cap and never raise.  The
gamma acceptance-rejection loop returns only on acceptance: on a draw stream
that always rejects it is still running after any finite number of
iterations (its fuel-indexed model returns `none` for every fuel), rather
than aborting with an `EstimationDivergedError` after a large fixed number of
trials. -/
theorem gamma_loop_never_aborts (fuel k : ℕ) :
    Gamma.gamma_3_1_simulation dZero k fuel = none :=
  Gamma.gamma_loop_dZero_none fuel k

namespace Investment

lemma exp_sim_nonneg (lam : ℝ) (hlam : 0 < lam) (w : Unit01) :
    0 ≤ Exponential.exp_simulation lam w := by
  unfold Exponential.exp_simulation Exponential.exp_dist_inverse
  apply div_nonneg _ (le_of_lt hlam)
  have h := Real.log_nonpos (by linarith [w.2.2]) (by linarith [w.2.1] :
    (1 : ℝ) - w.1 ≤ 1)
  linarith

lemma pathRun_succ (d : ℕ → Unit01 × Unit01) :
    ∀ (m k : ℕ) (acc : ℝ),
      pathRun d k (m + 1) acc =
        (pathRun d k m acc + Exponential.exp_simulation (1 / 1000) (d (k + m)).1) *
          (1 + beta_dist_1_6_simulation (d (k + m)).2) := by
  intro m
  induction m with
  | zero =>
      intro k acc
      simp [pathRun]
  | succ n ih =>
      intro k acc
      rw [show pathRun d k (n + 1 + 1) acc
            = pathRun d (k + 1) (n + 1)
                ((acc + Exponential.exp_simulation (1 / 1000) (d k).1) *
                  (1 + beta_dist_1_6_simulation (d k).2)) from rfl,
        ih (k + 1),
        show pathRun d k (n + 1) acc
            = pathRun d (k + 1) n
                ((acc + Exponential.exp_simulation (1 / 1000) (d k).1) *
                  (1 + beta_dist_1_6_simulation (d k).2)) from rfl,
        show k + 1 + n = k + (n + 1) from by omega]

lemma pathRun_nonneg (d : ℕ → Unit01 × Unit01) :
    ∀ (m k : ℕ) (acc : ℝ), 0 ≤ acc → 0 ≤ pathRun d k m acc := by
  intro m
  induction m with
  | zero =>
      intro k acc h
      simpa [pathRun] using h
  | succ n ih =>
      intro k acc h
      rw [show pathRun d k (n + 1) acc
            = pathRun d (k + 1) n
                ((acc + Exponential.exp_simulation (1 / 1000) (d k).1) *
                  (1 + beta_dist_1_6_simulation (d k).2)) from rfl]
      apply ih
      have hs := exp_sim_nonneg (1 / 1000) (by norm_num) (d k).1
      have hr := beta_sim_nonneg (d k).2
      apply mul_nonneg <;> linarith

end Investment

/-- C7: for every fixed draw sequence the terminal accumulated value of the
recurrence `accumulated = (accumulated + saved) * (1 + rate_of_return)` after
`m + 1` months is at least the terminal value after the first `m` months:
contributions are non-negative and every return rate lies in `[0, 1)`. -/
theorem path_monotone_in_horizon (d : ℕ → Unit01 × Unit01) (m : ℕ) :
    Investment.accumulated_saved_simulation (m : ℤ) d ≤
      Investment.accumulated_saved_simulation ((m : ℤ) + 1) d := by
  unfold Investment.accumulated_saved_simulation
  rw [show ((m : ℤ)).toNat = m from by omega,
    show ((m : ℤ) + 1).toNat = m + 1 from by omega,
    Investment.pathRun_succ d m 0 0]
  have hP := Investment.pathRun_nonneg d m 0 0 le_rfl
  have hs := Investment.exp_sim_nonneg (1 / 1000) (by norm_num) (d (0 + m)).1
  have hr := Investment.beta_sim_nonneg (d (0 + m)).2
  nlinarith [mul_nonneg (add_nonneg hP hs) hr]

namespace Investment

lemma estimation_loop_invariant (z : ℝ) (samples : ℕ → ℝ) :
    ∀ (fuel : ℕ) (accumulated : List ℝ) (error : ℝ),
      (accumulated.length ≤ 1 → error = 10000) →
      ∀ (m e : ℝ) (n : ℕ),
        estimation_loop z samples fuel accumulated error = some (m, e, n) →
        e ≤ 5000 ∧ 2 ≤ n := by
  intro fuel
  induction fuel with
  | zero =>
      intro acc error hinv m e n h
      exact absurd h (by simp [estimation_loop])
  | succ f ih =>
      intro acc error hinv m e n h
      rw [estimation_loop] at h
      split at h
      · rename_i hc
        refine ih (acc ++ [samples acc.length]) _ ?_ m e n h
        intro hlen
        have hlen2 : (acc ++ [samples acc.length]).length = acc.length + 1 := by
          simp
        unfold half_width_update
        rw [if_neg (by omega)]
        exact hinv (by omega)
      · rename_i hc
        have h1 : np_mean acc = m ∧ error = e ∧ acc.length = n := by
          simpa [Prod.ext_iff] using h
        obtain ⟨-, rfl, rfl⟩ := h1
        refine ⟨not_lt.mp hc, ?_⟩
        by_contra hn
        have h10 := hinv (by omega)
        rw [h10] at hc
        exact hc (by norm_num)

end Investment

/-- C1: whenever the sequential estimator returns a triple
`(mean, half_width, sample_count)`, the returned half-width is at most the
target `5000` and the sample count is at least `2`: the half-width keeps the
sentinel value `10000 > 5000` while `n ≤ 1`, so the `while error > 5000` loop
cannot stop before two samples exist.  Holds for every confidence level
(every quantile value `z`). -/
theorem estimator_half_width_and_count (ppf : ℝ → ℝ) (confidence : ℝ)
    (samples : ℕ → ℝ) (fuel : ℕ) (m e : ℝ) (n : ℕ)
    (h : Investment.accumulated_saved_average_simulation ppf confidence samples
      fuel = some (m, e, n)) :
    e ≤ 5000 ∧ 2 ≤ n :=
  Investment.estimation_loop_invariant _ samples fuel [] 10000
    (fun _ => rfl) m e n h

namespace Investment

lemma estimator_zero_run :
    accumulated_saved_average_simulation (fun _ => 0) (95 / 100)
      (fun _ => 0) 3 = some (0, 0, 2) := by
  unfold accumulated_saved_average_simulation
  norm_num [estimation_loop, half_width_update, np_mean, np_std]

end Investment

/-- Witness for C1: a concrete converging run (`z = 0`, constant samples)
returns `(0, 0, 2)`, and the theorem applies to it. -/
theorem estimator_half_width_and_count_witness :
    Investment.accumulated_saved_average_simulation (fun _ => 0) (95 / 100)
      (fun _ => 0) 3 = some (0, 0, 2) ∧ (0 : ℝ) ≤ 5000 ∧ 2 ≤ 2 :=
  ⟨Investment.estimator_zero_run,
    estimator_half_width_and_count (fun _ => 0) (95 / 100) (fun _ => 0) 3 0 0 2
      Investment.estimator_zero_run⟩

/-- C9: on every iteration with more than one sample, the half-width computed
by the loop equals `z * sqrt(Σ (x - mean)² / n) / sqrt n` — the population
standard deviation, dividing by `n` (numpy's `ddof = 0`), not `n - 1`; the
same update is used on every iteration, and the `z` fed to the loop is
`ppf(1 - (1 - confidence)/2)`. -/
theorem half_width_formula :
    (∀ (z e : ℝ) (l : List ℝ), 1 < l.length →
      Investment.half_width_update z e l =
        z * Real.sqrt ((l.map fun x => (x - l.sum / l.length) ^ 2).sum
          / l.length) / Real.sqrt l.length) ∧
    (∀ (ppf : ℝ → ℝ) (confidence : ℝ) (samples : ℕ → ℝ) (fuel : ℕ),
      Investment.accumulated_saved_average_simulation ppf confidence samples
          fuel =
        Investment.estimation_loop (ppf (1 - (1 - confidence) / 2)) samples
          fuel [] 10000) := by
  constructor
  · intro z e l hl
    unfold Investment.half_width_update Investment.np_std Investment.np_mean
    rw [if_pos hl]
  · intro ppf confidence samples fuel
    rfl

/-- Witness for C9 at `z = 1`, `e = 7`, `l = [0, 0]`. -/
theorem half_width_formula_witness :
    1 < ([(0 : ℝ), 0]).length ∧
    Investment.half_width_update 1 7 [(0 : ℝ), 0] =
      1 * Real.sqrt ((([(0 : ℝ), 0]).map fun x =>
        (x - ([(0 : ℝ), 0]).sum / ([(0 : ℝ), 0]).length) ^ 2).sum
          / ([(0 : ℝ), 0]).length) / Real.sqrt ([(0 : ℝ), 0]).length :=
  ⟨by norm_num, half_width_formula.1 1 7 [0, 0] (by norm_num)⟩

namespace Binomial

lemma binomial_cum_succ (n : ℕ) (p : ℚ) (k : ℕ) :
    binomial_cum n p (k + 1) = binomial_cum n p k + binomial_mass k n p :=
  Finset.sum_range_succ _ k

lemma binomial_walk_some (n : ℕ) (p u : ℚ) :
    ∀ (rem i x : ℕ),
      binomial_walk n p u rem i (binomial_cum n p i) = some x →
      i ≤ x ∧ x < i + rem ∧ u < binomial_cum n p (x + 1) ∧
        ∀ y, i ≤ y → y < x → binomial_cum n p (y + 1) ≤ u := by
  intro rem
  induction rem with
  | zero =>
      intro i x h
      exact absurd h (by simp [binomial_walk])
  | succ r ih =>
      intro i x h
      simp only [binomial_walk] at h
      rw [← binomial_cum_succ n p i] at h
      by_cases hc : u < binomial_cum n p (i + 1)
      · rw [if_pos hc] at h
        obtain rfl : i = x := by simpa using h
        exact ⟨le_rfl, by omega, hc, fun y hy1 hy2 => absurd hy1 (by omega)⟩
      · rw [if_neg hc] at h
        obtain ⟨h1, h2, h3, h4⟩ := ih (i + 1) x h
        refine ⟨by omega, by omega, h3, fun y hy1 hy2 => ?_⟩
        rcases Nat.eq_or_lt_of_le hy1 with rfl | hy
        · exact not_lt.mp hc
        · exact h4 y hy hy2

lemma binomial_walk_ne_none (n : ℕ) (p u : ℚ) :
    ∀ (rem i : ℕ), ¬ u < binomial_cum n p i →
      u < binomial_cum n p (i + rem) →
      binomial_walk n p u rem i (binomial_cum n p i) ≠ none := by
  intro rem
  induction rem with
  | zero =>
      intro i h0 h1
      exact absurd (by simpa using h1) h0
  | succ r ih =>
      intro i h0 h1 h
      simp only [binomial_walk] at h
      rw [← binomial_cum_succ n p i] at h
      by_cases hc : u < binomial_cum n p (i + 1)
      · rw [if_pos hc] at h
        exact Option.noConfusion h
      · rw [if_neg hc] at h
        refine ih (i + 1) hc ?_ h
        rw [show i + 1 + r = i + (r + 1) from by omega]
        exact h1

end Binomial

/-- Supporting analysis for the binomial walk: in exact rational arithmetic
the cumulative mass reaches exactly `1 > u` at `x = n`, so for `u ∈ [0, 1)`
the walk never exhausts the support — the exhaustion (fall-off-the-loop)
path of `binomial_simulation` is reachable only for `u ≥ 1` — and the
sampler returns the first `x` whose cumulative mass exceeds `u`. -/
theorem binomial_walk_never_exhausts (n : ℕ) (p u : ℚ)
    (_hp0 : 0 ≤ p) (_hp1 : p ≤ 1) (hu0 : 0 ≤ u) (hu1 : u < 1) :
    Binomial.binomial_simulation n p u ≠ none ∧
    ∀ x, Binomial.binomial_simulation n p u = some x →
      u < Binomial.binomial_cum n p (x + 1) ∧
      ∀ y, y < x → Binomial.binomial_cum n p (y + 1) ≤ u := by
  have hcum0 : Binomial.binomial_cum n p 0 = 0 := rfl
  have hcumtot : Binomial.binomial_cum n p (0 + (n + 1)) = 1 := by
    rw [show 0 + (n + 1) = n + 1 from by omega]
    exact Binomial.binomial_sum_one n p
  have hentry : Binomial.binomial_simulation n p u
      = Binomial.binomial_walk n p u (n + 1) 0 (Binomial.binomial_cum n p 0) := by
    rw [hcum0]
    rfl
  constructor
  · rw [hentry]
    refine Binomial.binomial_walk_ne_none n p u (n + 1) 0 ?_ ?_
    · rw [hcum0]
      exact not_lt.mpr hu0
    · rw [hcumtot]
      exact hu1
  · intro x h
    rw [hentry] at h
    have hs := Binomial.binomial_walk_some n p u (n + 1) 0 x h
    exact ⟨hs.2.2.1, fun y hy => hs.2.2.2 y (Nat.zero_le y) hy⟩

namespace Binomial

lemma sim_eval : binomial_simulation 2 (1 / 2) (1 / 2) = some 1 := by
  norm_num [binomial_simulation, binomial_walk, binomial_mass, Nat.choose]

end Binomial

/-- Instance of the walk analysis at `n = 2`, `p = 1/2`, `u = 1/2` (the
sampler returns `1`). -/
theorem binomial_walk_never_exhausts_witness :
    Binomial.binomial_simulation 2 (1 / 2) (1 / 2) ≠ none ∧
    ((1 / 2 : ℚ) < Binomial.binomial_cum 2 (1 / 2) 2 ∧
      ∀ y, y < 1 → Binomial.binomial_cum 2 (1 / 2) (y + 1) ≤ 1 / 2) :=
  ⟨(binomial_walk_never_exhausts 2 (1 / 2) (1 / 2) (by norm_num) (by norm_num)
      (by norm_num) (by norm_num)).1,
   (binomial_walk_never_exhausts 2 (1 / 2) (1 / 2) (by norm_num) (by norm_num)
      (by norm_num) (by norm_num)).2 1 Binomial.sim_eval⟩

/-- C4 (evaluation at the failing input): the exhaustion path of
`binomial_simulation` raises nothing — the code falls off the `for` loop and
yields `None`, an undefined, non-integer value contradicting its declared
`-> int` return type, and no `NumericInconsistencyError` (nor any `raise`)
exists anywhere in the code.  At `n = 2`, `p = 1/2` the cumulative mass
reaches exactly `1`, so the draw `u = 1` — the exhaustion threshold, which
the code's float arithmetic moves below `1` whenever the rounded cumulative
total falls short of `1` — walks the whole support without `u < prob` ever
holding, and the sampler returns `None` instead of raising. -/
theorem binomial_exhaustion_returns_none :
    Binomial.binomial_cum 2 (1 / 2) 3 = 1 ∧
    Binomial.binomial_simulation 2 (1 / 2) 1 = none := by
  constructor
  · norm_num [Binomial.binomial_cum, Binomial.binomial_mass,
      Finset.sum_range_succ, Nat.choose]
  · have h1 : Int.toNat 2 = 2 := rfl
    norm_num [Binomial.binomial_simulation, Binomial.binomial_walk,
      Binomial.binomial_mass, Nat.choose, h1]
